import Mathlib

/-!
Verification of the threaded-messaging data layer of the repository
(`Django-signals_orm-0x04/messaging/`): the `Message`, `Notification` and
`MessageHistory` models (`models.py`), the `pre_save`/`post_save` signal
handlers (`signals.py`) and the custom managers (`managers.py`, duplicated in
`models.py`).

The embedding is relational: a database is a list of rows per table, a Django
model instance is a record that also carries the in-memory attributes the
signal handlers stage on it (`_old_content`, `_content_changed`).  Machine
time (`timezone.now()`) is modelled by an explicit `Nat` parameter passed to
each save.  User ids are `Nat`; id `0` plays the role of a Python-falsy
(unset) foreign key, matching the truthiness checks in the source.
-/

/-- A row of the `Message` table (`models.py`, class `Message`). -/
structure MsgRow where
  id : Nat
  sender_id : Nat
  receiver_id : Nat
  content : String
  timestamp : Nat
  edited : Bool
  edited_at : Option Nat
  parent_message_id : Option Nat
  read : Bool
  read_at : Option Nat
deriving Repr, DecidableEq

/-- A row of the `Notification` table (`models.py`, class `Notification`). -/
structure NotificationRow where
  user_id : Nat
  message_id : Nat
  is_read : Bool
  created_at : Nat
deriving Repr, DecidableEq

/-- A row of the `MessageHistory` table (`models.py`, class `MessageHistory`). -/
structure HistoryRow where
  message_id : Nat
  old_content : String
  edited_at : Nat
  edited_by : Option Nat
deriving Repr, DecidableEq

/-- The three tables the claims touch. -/
structure DB where
  messages : List MsgRow
  notifications : List NotificationRow
  history : List HistoryRow
deriving Repr, DecidableEq

/-- An in-memory `Message` instance.  Besides the model fields it carries the
attributes that `capture_message_history` (signals.py:22-65) sets on the
instance: `_old_content` (here `old_content`, `""` when never set) and
`_content_changed` (here `content_changed`; `hasattr(...) and value` is
modelled as a `Bool` defaulting to `false`).  These attributes live on the
Python object and persist across saves of the same instance. -/
structure MsgInstance where
  pk : Option Nat
  sender_id : Nat
  receiver_id : Nat
  content : String
  timestamp : Nat
  edited : Bool
  edited_at : Option Nat
  parent_message_id : Option Nat
  read : Bool
  read_at : Option Nat
  old_content : String
  content_changed : Bool
deriving Repr, DecidableEq

/-- The table row written for an instance persisted under primary key `pk`
(a plain `super().save()` writes every model field of the instance). -/
def rowOf (inst : MsgInstance) (pk : Nat) : MsgRow :=
  { id := pk
    sender_id := inst.sender_id
    receiver_id := inst.receiver_id
    content := inst.content
    timestamp := inst.timestamp
    edited := inst.edited
    edited_at := inst.edited_at
    parent_message_id := inst.parent_message_id
    read := inst.read
    read_at := inst.read_at }

/-- `Message.clean` (models.py:336-342): when both foreign keys are set
(Python truthiness: nonzero) and equal, raise a `ValidationError`. -/
def clean (inst : MsgInstance) : Except String Unit :=
  if inst.sender_id ≠ 0 ∧ inst.receiver_id ≠ 0 ∧ inst.sender_id = inst.receiver_id then
    Except.error "Sender and receiver cannot be the same user."
  else
    Except.ok ()

/-- The `pre_save` handler `capture_message_history` (signals.py:22-65):
on a save of an instance that already has a primary key whose row exists,
if the stored content differs from the incoming content, stage the old
content and set the changed flag on the instance.  (The handler also stages
`_old_sender_id`, which no other code reads; it is omitted.)  Nothing is
ever reset: the staged attributes survive on the instance. -/
def capture_message_history (db : DB) (inst : MsgInstance) : MsgInstance :=
  match inst.pk with
  | none => inst
  | some pk =>
    match db.messages.find? (fun r => r.id == pk) with
    | none => inst
    | some old =>
      if old.content ≠ inst.content then
        { inst with old_content := old.content, content_changed := true }
      else
        inst

/-- The next autoincrement primary key: one past the largest id in use. -/
def nextId (db : DB) : Nat :=
  (db.messages.map (fun r => r.id)).foldr max 0 + 1

/-- The row write performed by `super().save()`: an instance with a primary
key whose row exists is UPDATEd (all fields overwritten); otherwise a row is
INSERTed (a fresh autoincrement id is assigned when the instance has none).
Returns the new database, the instance (with its pk now set), the pk and the
`created` flag Django passes to `post_save`. -/
def writeRow (db : DB) (inst : MsgInstance) : DB × MsgInstance × Nat × Bool :=
  match inst.pk with
  | some pk =>
    if (db.messages.find? (fun r => r.id == pk)).isSome then
      ({ db with messages := db.messages.map (fun r => if r.id == pk then rowOf inst pk else r) },
       inst, pk, false)
    else
      ({ db with messages := db.messages ++ [rowOf inst pk] }, inst, pk, true)
  | none =>
    let pk := nextId db
    ({ db with messages := db.messages ++ [rowOf inst pk] },
     { inst with pk := some pk }, pk, true)

/-- The `post_save` handler `create_notification_on_message` (signals.py:68-138).
On creation: if the receiver FK is unset (falsy) skip; otherwise create an
unread notification for the receiver (a duplicate `(user, message)` pair
violates `unique_together` and the raised error is caught and logged, leaving
the table unchanged).  On update: if the instance's staged `_content_changed`
flag is set, insert a history row carrying the staged old content and then
update the message row's `edited`/`edited_at` fields via a queryset update. -/
def create_notification_on_message (db : DB) (inst : MsgInstance) (pk : Nat)
    (created : Bool) (now : Nat) : DB :=
  if created then
    if inst.receiver_id = 0 then
      db
    else if db.notifications.any (fun nt => nt.user_id == inst.receiver_id && nt.message_id == pk) then
      db
    else
      { db with notifications :=
          db.notifications ++ [{ user_id := inst.receiver_id, message_id := pk,
                                 is_read := false, created_at := now }] }
  else
    if inst.content_changed then
      { db with
        history := db.history ++ [{ message_id := pk, old_content := inst.old_content,
                                    edited_at := now, edited_by := some inst.sender_id }]
        messages := db.messages.map (fun r =>
          if r.id == pk then { r with edited := true, edited_at := some now } else r) }
    else
      db

/-- `Message.save` (models.py:344-347) together with the signal pipeline Django
runs around `super().save()`: `full_clean` (which calls `clean` and aborts the
save by raising), then the `pre_save` handler, the row write, and the
`post_save` handler.  A raised `ValidationError` is modelled as `Except.error`;
nothing is written in that case. -/
def save (db : DB) (inst : MsgInstance) (now : Nat) : Except String (DB × MsgInstance) :=
  match clean inst with
  | Except.error e => Except.error e
  | Except.ok _ =>
    let inst1 := capture_message_history db inst
    match writeRow db inst1 with
    | (db1, inst2, pk, created) =>
      Except.ok (create_notification_on_message db1 inst2 pk created now, inst2)

/-- The history rows of one message in the order `MessageHistory.Meta.ordering`
delivers them: `["-edited_at"]`, most recent first (models.py:590-598).  An
SQL descending order is modelled as an ascending stable sort, reversed. -/
def historyFor (db : DB) (mid : Nat) : List HistoryRow :=
  ((db.history.filter (fun h => h.message_id == mid)).mergeSort
      (fun a b => decide (a.edited_at ≤ b.edited_at))).reverse

/-- Notifications held for a `(user, message)` pair. -/
def notificationsFor (db : DB) (uid mid : Nat) : List NotificationRow :=
  db.notifications.filter (fun nt => nt.user_id == uid && nt.message_id == mid)

/-- `Message.mark_as_read` (models.py:457-478) on the model fields: set the
read flag and stamp the read time with `timezone.now()` (the explicit `now`).
With `save=True` these two fields are persisted via `update_fields`. -/
def mark_as_read (now : Nat) (m : MsgRow) : MsgRow :=
  { m with read := true, read_at := some now }

/-- `Message.mark_as_unread` (models.py:480-499): clear both fields. -/
def mark_as_unread (m : MsgRow) : MsgRow :=
  { m with read := false, read_at := none }

/-- Dereference the parent foreign key: the parent id stored on the row with
id `mid`.  (Walking `current.parent_message` in the ORM loads the parent row
through this key.) -/
def parent_of (db : List MsgRow) (mid : Nat) : Option Nat :=
  match db.find? (fun m => m.id == mid) with
  | none => none
  | some m => m.parent_message_id

/-- The loop body of `Message.get_thread_depth` (models.py:388-405):
`while current is not None: depth += 1; current = current.parent_message;
if depth > 100: break`.  The break bounds the loop at 101 iterations, which
is the termination measure. -/
def get_thread_depth_loop (db : List MsgRow) (current : Option Nat) (depth : Nat) : Nat :=
  match current with
  | none => depth
  | some cid =>
    if depth + 1 > 100 then depth + 1
    else get_thread_depth_loop db (parent_of db cid) (depth + 1)
termination_by 101 - depth
decreasing_by omega

/-- `Message.get_thread_depth` (models.py:388-405). -/
def get_thread_depth (db : List MsgRow) (m : MsgRow) : Nat :=
  get_thread_depth_loop db m.parent_message_id 0

/-- Fuel-indexed restatement of `get_thread_depth_loop` (fuel `= 100 - depth`),
structurally recursive so that concrete runs compute by `decide`. -/
def get_thread_depth_go (db : List MsgRow) : Nat → Option Nat → Nat → Nat
  | _, none, depth => depth
  | 0, some _, depth => depth + 1
  | fuel + 1, some cid, depth => get_thread_depth_go db fuel (parent_of db cid) (depth + 1)

/-- `Message.get_root_message` (models.py:407-420):
`while current.parent_message is not None: current = current.parent_message`.
The source loop has no cycle guard, so the embedding is fuel-indexed: on a
finite parent chain any fuel at least the chain length computes the loop's
limit, and on an infinite (cyclic) chain no fuel stabilises.  A dangling
parent key (no such row) ends the walk — the ORM would raise there. -/
def get_root_message (db : List MsgRow) : Nat → MsgRow → MsgRow
  | 0, current => current
  | fuel + 1, current =>
    match current.parent_message_id with
    | none => current
    | some pid =>
      match db.find? (fun m => m.id == pid) with
      | none => current
      | some p => get_root_message db fuel p

/-- The direct replies of a message, as `msg.replies.order_by("timestamp")`
fetches them: the rows whose parent key is `msg.id`, sorted by creation time
ascending. -/
def direct_replies (db : List MsgRow) (msg : MsgRow) : List MsgRow :=
  (db.filter (fun m => m.parent_message_id == some msg.id)).mergeSort
    (fun a b => decide (a.timestamp ≤ b.timestamp))

/-- The inner `collect_replies` of `Message.get_all_replies`
(models.py:349-386).  The recursion stops when `current_depth >= max_depth`;
the fuel argument is exactly `max_depth - current_depth`, so `fuel = 0` is the
depth cutoff.  Each direct reply is appended to the shared accumulator and
then its own replies are collected one level deeper. -/
def collect_replies (db : List MsgRow) : Nat → MsgRow → List MsgRow → List MsgRow
  | 0, _, collected => collected
  | fuel + 1, msg, collected =>
    (direct_replies db msg).foldl
      (fun acc reply => collect_replies db fuel reply (acc ++ [reply])) collected

/-- `Message.get_all_replies` (models.py:349-386) with its default
`max_depth=10`. -/
def get_all_replies (db : List MsgRow) (msg : MsgRow) (max_depth : Nat := 10) : List MsgRow :=
  collect_replies db max_depth msg []

/-- The ids of the direct replies of message `pid`:
`Message.objects.filter(parent_message_id=msg_id).values_list("id", flat=True)`. -/
def childIds (db : List MsgRow) (pid : Nat) : List Nat :=
  (db.filter (fun m => m.parent_message_id == some pid)).map (fun m => m.id)

/-- All message ids of a database. -/
def dbIds (db : List MsgRow) : Finset Nat :=
  (db.map (fun m => m.id)).toFinset

/-- The inner `get_all_descendants` of `ThreadedMessageQuerySet.get_thread`
(models.py:52-109, duplicated in managers.py:50-110): a depth-first traversal
of the reply relation that returns early on already-visited ids, so it
terminates even on cyclic parent data.  The Python recursion
(`collected.add(msg_id)` followed by a recursive call per direct reply) is
written worklist-style: the pending ids are an explicit stack, children are
pushed in front, and the visited set is the same `collected`.  The measure —
unvisited ids shrink or the stack shortens — is exactly the visited-set
cycle guard of the source. -/
def get_all_descendants (db : List MsgRow) : List Nat → Finset Nat → Finset Nat
  | [], collected => collected
  | msgId :: rest, collected =>
    if msgId ∈ collected then
      get_all_descendants db rest collected
    else
      get_all_descendants db (childIds db msgId ++ rest) (insert msgId collected)
termination_by stack collected => (((dbIds db ∪ stack.toFinset) \ collected).card, stack.length)
decreasing_by
  · apply Prod.Lex.right'
    · apply Finset.card_le_card
      intro x hx
      simp only [Finset.mem_sdiff, Finset.mem_union, List.mem_toFinset] at *
      rcases hx with ⟨hx1, hx2⟩
      refine ⟨?_, hx2⟩
      rcases hx1 with h | h
      · exact Or.inl h
      · exact Or.inr (List.mem_cons_of_mem _ h)
    · simp
  · apply Prod.Lex.left
    apply Finset.card_lt_card
    rw [Finset.ssubset_iff_of_subset]
    · refine ⟨msgId, ?_, ?_⟩
      · simp_all
      · simp
    · intro x hx
      simp only [Finset.mem_sdiff, Finset.mem_union, List.mem_toFinset, List.mem_append,
        Finset.mem_insert] at *
      rcases hx with ⟨hx1, hx2⟩
      push_neg at hx2
      refine ⟨?_, hx2.2⟩
      rcases hx1 with h | h
      · exact Or.inl h
      · rcases h with h | h
        · left
          simp only [childIds, List.mem_map, List.mem_filter] at h
          obtain ⟨m, ⟨hm, _⟩, rfl⟩ := h
          simp only [dbIds, List.mem_toFinset]
          exact List.mem_map_of_mem _ hm
        · exact Or.inr (List.mem_cons_of_mem _ h)

/-- `ThreadedMessageQuerySet.get_thread` (models.py:52-109): empty when the
root id does not exist; otherwise every row whose id was collected by the
descendant traversal (the root id is re-added, a no-op), sorted by creation
time ascending. -/
def get_thread (db : List MsgRow) (root_message_id : Nat) : List MsgRow :=
  match db.find? (fun m => m.id == root_message_id) with
  | none => []
  | some _ =>
    let all_ids := insert root_message_id (get_all_descendants db [root_message_id] ∅)
    (db.filter (fun m => m.id ∈ all_ids)).mergeSort
      (fun a b => decide (a.timestamp ≤ b.timestamp))

/-- `UnreadMessagesQuerySet.for_user` (models.py:115-126): rows received by
the user. -/
def for_user (l : List MsgRow) (uid : Nat) : List MsgRow :=
  l.filter (fun m => m.receiver_id == uid)

/-- `UnreadMessagesQuerySet.unread_only` (models.py:128-130). -/
def unread_only (l : List MsgRow) : List MsgRow :=
  l.filter (fun m => m.read == false)

/-- `UnreadMessagesQuerySet.read_only` (models.py:132-134). -/
def read_only (l : List MsgRow) : List MsgRow :=
  l.filter (fun m => m.read == true)

/-- `order_by("-timestamp")`: newest first, modelled as an ascending stable
sort, reversed. -/
def order_by_timestamp_desc (l : List MsgRow) : List MsgRow :=
  (l.mergeSort (fun a b => decide (a.timestamp ≤ b.timestamp))).reverse

/-- `UnreadMessagesManager.unread_for_user` (models.py:167-191); the
`select_related`/`only` steps change fetching, not which rows qualify. -/
def unread_for_user (db : List MsgRow) (uid : Nat) : List MsgRow :=
  order_by_timestamp_desc (unread_only (for_user db uid))

/-- `UnreadMessagesManager.read_for_user` (models.py:193-210). -/
def read_for_user (db : List MsgRow) (uid : Nat) : List MsgRow :=
  order_by_timestamp_desc (read_only (for_user db uid))

/-- `UnreadMessagesManager.all_for_user` (models.py:212-228). -/
def all_for_user (db : List MsgRow) (uid : Nat) : List MsgRow :=
  order_by_timestamp_desc (for_user db uid)

/-- `IdChain db cur n`: following the parent key from loop state `cur` reaches
a chain end (`none`) after exactly `n` hops.  A message whose `IdChain` starts
at its parent key and has length `n` sits `n` hops above the chain end. -/
inductive IdChain (db : List MsgRow) : Option Nat → Nat → Prop
  | nil : IdChain db none 0
  | cons {cid n : Nat} : IdChain db (parent_of db cid) n → IdChain db (some cid) (n + 1)

/-- `MsgChain db m n`: the parent chain of row `m` is finite (acyclic and with
every parent row present), reaching a row with null parent after `n` hops. -/
inductive MsgChain (db : List MsgRow) : MsgRow → Nat → Prop
  | root (m : MsgRow) : m.parent_message_id = none → MsgChain db m 0
  | step (m p : MsgRow) (pid n : Nat) :
      m.parent_message_id = some pid →
      db.find? (fun x => x.id == pid) = some p →
      MsgChain db p n → MsgChain db m (n + 1)

/-- `ReachesId db root i`: message id `i` is in the thread of `root` — it is
the root itself or the id of a row reachable from it through parent links. -/
inductive ReachesId (db : List MsgRow) (root : Nat) : Nat → Prop
  | refl : ReachesId db root root
  | child {pid : Nat} {m : MsgRow} :
      ReachesId db root pid → m ∈ db → m.parent_message_id = some pid →
      ReachesId db root m.id

/-- `DescAt db root m d`: row `m` is a descendant of `root` nested exactly `d`
levels below it (`d = 1` is a direct reply), decomposed at the first hop. -/
inductive DescAt (db : List MsgRow) : MsgRow → MsgRow → Nat → Prop
  | direct (root m : MsgRow) :
      m ∈ db → m.parent_message_id = some root.id → DescAt db root m 1
  | via (root r m : MsgRow) (d : Nat) :
      r ∈ db → r.parent_message_id = some root.id → DescAt db r m d →
      DescAt db root m (d + 1)

/-- A well-formed edit sequence against stored content `prev` at clock `t`:
each step changes the content and strictly advances the clock. -/
def ValidEdits (prev : String) (t : Nat) : List (String × Nat) → Prop
  | [] => True
  | (c, t') :: rest => c ≠ prev ∧ t < t' ∧ ValidEdits c t' rest

/-- Set the content and save, once per list element (an edit session on one
in-memory instance). -/
def applyEdits (db : DB) (inst : MsgInstance) :
    List (String × Nat) → Except String (DB × MsgInstance)
  | [] => Except.ok (db, inst)
  | (c, t) :: rest =>
    match save db { inst with content := c } t with
    | Except.error e => Except.error e
    | Except.ok (db', inst') => applyEdits db' inst' rest

/-- The history rows an edit sequence should leave, in insertion (ascending
clock) order: the k-th row carries the content stored immediately before the
k-th edit. -/
def expectedHistory (mid sid : Nat) (prev : String) :
    List (String × Nat) → List HistoryRow
  | [] => []
  | (c, t) :: rest =>
    { message_id := mid, old_content := prev, edited_at := t,
      edited_by := some sid } :: expectedHistory mid sid c rest

/-- Concrete fixture: a row with given id, parent and timestamp, sent by user
1 to user 2. -/
def exRow (i : Nat) (p : Option Nat) (ts : Nat) : MsgRow :=
  { id := i, sender_id := 1, receiver_id := 2, content := "m", timestamp := ts,
    edited := false, edited_at := none, parent_message_id := p, read := false,
    read_at := none }

/-- Fixture for the depth cap: a message that is its own parent (pathological
cyclic data). -/
def loopMsg : MsgRow := exRow 1 (some 1) 0

def loopDb : List MsgRow := [loopMsg]

/-- Fixture: 1 → 2 → 3, with 3 the root. -/
def chainDb : List MsgRow := [exRow 1 (some 2) 0, exRow 2 (some 3) 1, exRow 3 none 2]

def chainMsg : MsgRow := exRow 1 (some 2) 0

/-- Fixture for `get_thread`: root 1 with direct reply 2. -/
def threadDb : List MsgRow := [exRow 1 none 0, exRow 2 (some 1) 1]

/-- Fixtures for the save pipeline: user 1 has sent message 1 ("hi") to user
2; the creation notification is already present. -/
def baseMsgRow : MsgRow :=
  { id := 1, sender_id := 1, receiver_id := 2, content := "hi", timestamp := 0,
    edited := false, edited_at := none, parent_message_id := none, read := false,
    read_at := none }

def baseDB : DB :=
  { messages := [baseMsgRow]
    notifications := [{ user_id := 2, message_id := 1, is_read := false, created_at := 0 }]
    history := [] }

/-- The in-memory instance holding message 1, as freshly loaded. -/
def baseInst : MsgInstance :=
  { pk := some 1, sender_id := 1, receiver_id := 2, content := "hi", timestamp := 0,
    edited := false, edited_at := none, parent_message_id := none, read := false,
    read_at := none, old_content := "", content_changed := false }

/-- A brand-new unsaved instance (no primary key yet). -/
def freshInst : MsgInstance :=
  { pk := none, sender_id := 1, receiver_id := 2, content := "hello", timestamp := 5,
    edited := false, edited_at := none, parent_message_id := none, read := false,
    read_at := none, old_content := "", content_changed := false }

/-- The content stored after an edit sequence (the initial content when the
sequence is empty). -/
def finalContent (c0 : String) : List (String × Nat) → String
  | [] => c0
  | (c, _) :: rest => finalContent c rest

/-- The clock of the last edit (the given default when the sequence is
empty). -/
def finalTime (t0 : Nat) : List (String × Nat) → Nat
  | [] => t0
  | (_, t) :: rest => finalTime t rest

/-- Ascending-by-timestamp comparator facts: membership through the sort. -/
lemma mem_mergeSort_ts {m : MsgRow} {l : List MsgRow} :
    m ∈ l.mergeSort (fun a b => decide (a.timestamp ≤ b.timestamp)) ↔ m ∈ l :=
  List.mem_mergeSort

lemma pairwise_mergeSort_ts (l : List MsgRow) :
    (l.mergeSort (fun a b => decide (a.timestamp ≤ b.timestamp))).Pairwise
      (fun a b => a.timestamp ≤ b.timestamp) := by
  have h := @List.sorted_mergeSort MsgRow (fun a b => decide (a.timestamp ≤ b.timestamp))
    (by intro a b c h1 h2; simp only [decide_eq_true_eq] at *; omega)
    (by intro a b; simp only [Bool.or_eq_true, decide_eq_true_eq]; omega) l
  exact h.imp (by intro a b hb; simpa using hb)

lemma order_by_timestamp_desc_mem {m : MsgRow} {l : List MsgRow} :
    m ∈ order_by_timestamp_desc l ↔ m ∈ l := by
  simp [order_by_timestamp_desc, List.mem_reverse, mem_mergeSort_ts]

lemma order_by_timestamp_desc_sorted (l : List MsgRow) :
    (order_by_timestamp_desc l).Pairwise (fun a b => b.timestamp ≤ a.timestamp) := by
  unfold order_by_timestamp_desc
  rw [List.pairwise_reverse]
  exact pairwise_mergeSort_ts l

/-- C9: for every user id `u`, `unread_for_user u` returns exactly the rows
with receiver `u` and `read = false`, `read_for_user u` exactly those with
receiver `u` and `read = true`, and `all_for_user u` exactly those with
receiver `u` — in particular a message whose sender is `u` but whose receiver
is not never qualifies — and each of the three results is sorted by creation
timestamp descending (newest first). -/
theorem inbox_views_spec (db : List MsgRow) (uid : Nat) :
    (∀ m, m ∈ unread_for_user db uid ↔ m ∈ db ∧ m.receiver_id = uid ∧ m.read = false) ∧
    (∀ m, m ∈ read_for_user db uid ↔ m ∈ db ∧ m.receiver_id = uid ∧ m.read = true) ∧
    (∀ m, m ∈ all_for_user db uid ↔ m ∈ db ∧ m.receiver_id = uid) ∧
    (unread_for_user db uid).Pairwise (fun a b => b.timestamp ≤ a.timestamp) ∧
    (read_for_user db uid).Pairwise (fun a b => b.timestamp ≤ a.timestamp) ∧
    (all_for_user db uid).Pairwise (fun a b => b.timestamp ≤ a.timestamp) := by
  refine ⟨?_, ?_, ?_, ?_, ?_, ?_⟩
  · intro m
    simp only [unread_for_user, order_by_timestamp_desc_mem, unread_only, for_user,
      List.mem_filter, beq_iff_eq, beq_eq_false_iff_ne, and_assoc]
  · intro m
    simp only [read_for_user, order_by_timestamp_desc_mem, read_only, for_user,
      List.mem_filter, beq_iff_eq, and_assoc]
  · intro m
    simp [all_for_user, order_by_timestamp_desc_mem, for_user, List.mem_filter]
  · exact order_by_timestamp_desc_sorted _
  · exact order_by_timestamp_desc_sorted _
  · exact order_by_timestamp_desc_sorted _

/-- C8: saving an instance whose sender and receiver are the same (set) user
raises the validation error before anything is written — the save returns the
error and no database is produced — while `clean` passes any instance whose
sender and receiver differ. -/
theorem sender_receiver_validation (db : DB) (inst : MsgInstance) (now : Nat) :
    (inst.sender_id ≠ 0 → inst.sender_id = inst.receiver_id →
      save db inst now = Except.error "Sender and receiver cannot be the same user.") ∧
    (inst.sender_id ≠ inst.receiver_id → clean inst = Except.ok ()) := by
  constructor
  · intro h0 heq
    have hr : inst.receiver_id ≠ 0 := heq ▸ h0
    simp [save, clean, h0, hr, heq]
  · intro hne
    simp only [clean, ite_eq_right_iff]
    intro h
    exact absurd h.2.2 hne

/-- Witness for C8 at concrete instances: user 1 messaging themself is
rejected; user 1 messaging user 2 passes the check. -/
theorem sender_receiver_validation_witness :
    (save ⟨[], [], []⟩ ⟨none, 1, 1, "hi", 0, false, none, none, false, none, "", false⟩ 5 =
      Except.error "Sender and receiver cannot be the same user.") ∧
    (clean ⟨none, 1, 2, "hi", 0, false, none, none, false, none, "", false⟩ = Except.ok ()) :=
  ⟨(sender_receiver_validation ⟨[], [], []⟩
      ⟨none, 1, 1, "hi", 0, false, none, none, false, none, "", false⟩ 5).1
      (by decide) (by decide),
   (sender_receiver_validation ⟨[], [], []⟩
      ⟨none, 1, 2, "hi", 0, false, none, none, false, none, "", false⟩ 5).2
      (by decide)⟩

/-- C6 counterexample: `mark_as_read` is not idempotent as stated — a second
call at a later clock reading restamps `read_at`, so the state after two
calls differs from the state after one. -/
theorem mark_as_read_not_idempotent :
    mark_as_read 1 (mark_as_read 0
        ⟨1, 1, 2, "hi", 0, false, none, none, false, none⟩) ≠
      mark_as_read 0 ⟨1, 1, 2, "hi", 0, false, none, none, false, none⟩ := by
  decide

/-- C6 amended: `mark_as_read` followed by `mark_as_unread` leaves the message
with `read = false` and `read_at = null`; `mark_as_unread` is idempotent; and
`mark_as_read` is idempotent only up to the read timestamp — the read flag is
stable and a repeat call at the same clock reading is a no-op, but a repeat
call restamps `read_at` with its own clock reading. -/
theorem read_state_amended (m : MsgRow) (t t1 t2 : Nat) :
    ((mark_as_unread (mark_as_read t m)).read = false ∧
      (mark_as_unread (mark_as_read t m)).read_at = none) ∧
    mark_as_unread (mark_as_unread m) = mark_as_unread m ∧
    mark_as_read t (mark_as_read t m) = mark_as_read t m ∧
    ((mark_as_read t2 (mark_as_read t1 m)).read = (mark_as_read t1 m).read ∧
      (mark_as_read t2 (mark_as_read t1 m)).read_at = some t2) := by
  refine ⟨⟨rfl, rfl⟩, rfl, rfl, rfl, rfl⟩

lemma get_thread_depth_loop_eq_go (db : List MsgRow) :
    ∀ fuel cur depth, depth + fuel = 100 →
      get_thread_depth_loop db cur depth = get_thread_depth_go db fuel cur depth := by
  intro fuel
  induction fuel with
  | zero =>
    intro cur depth h
    cases cur with
    | none => simp [get_thread_depth_loop, get_thread_depth_go]
    | some cid =>
      rw [get_thread_depth_loop]
      simp only [get_thread_depth_go]
      rw [if_pos (by omega)]
  | succ f ih =>
    intro cur depth h
    cases cur with
    | none => simp [get_thread_depth_loop, get_thread_depth_go]
    | some cid =>
      rw [get_thread_depth_loop]
      simp only [get_thread_depth_go]
      rw [if_neg (by omega)]
      exact ih (parent_of db cid) (depth + 1) (by omega)

lemma get_thread_depth_eq_go (db : List MsgRow) (m : MsgRow) :
    get_thread_depth db m = get_thread_depth_go db 100 m.parent_message_id 0 :=
  get_thread_depth_loop_eq_go db 100 m.parent_message_id 0 rfl

lemma get_thread_depth_loop_of_chain (db : List MsgRow) :
    ∀ {cur n} depth, IdChain db cur n → depth + n ≤ 100 →
      get_thread_depth_loop db cur depth = depth + n := by
  intro cur n depth hc
  induction hc generalizing depth with
  | nil => intro _; simp [get_thread_depth_loop]
  | @cons cid k _ ih =>
    intro hle
    rw [get_thread_depth_loop, if_neg (by omega)]
    have := ih (depth + 1) (by omega)
    omega

lemma get_thread_depth_loop_le (db : List MsgRow) :
    ∀ cur depth, depth ≤ 100 → get_thread_depth_loop db cur depth ≤ 101 := by
  intro cur depth h
  induction cur, depth using get_thread_depth_loop.induct db with
  | case1 depth => rw [get_thread_depth_loop]; omega
  | case2 depth cid hgt => rw [get_thread_depth_loop, if_pos hgt]; omega
  | case3 depth cid hle ih =>
    rw [get_thread_depth_loop, if_neg hle]
    exact ih (by omega)

/-- C3 counterexample: on pathological (cyclic) parent data the claimed
ceiling of 100 is exceeded — a self-referential message yields depth 101.
The loop increments `depth`, then breaks only once `depth > 100`, so the
break itself returns 101. -/
theorem thread_depth_cap_counterexample :
    get_thread_depth loopDb loopMsg = 101 ∧ 100 < get_thread_depth loopDb loopMsg := by
  rw [get_thread_depth_eq_go]
  decide

/-- C3 amended: for a message sitting at the end of a parent chain of length
`n`, `get_thread_depth` returns `n` whenever `n ≤ 100`; on longer or
pathological (cyclic) chains the defensive break stops the walk and returns
exactly 101, so 101 — not 100 — is the ceiling of the function. -/
theorem thread_depth_amended (db : List MsgRow) (m : MsgRow) (n : Nat) :
    (IdChain db m.parent_message_id n → n ≤ 100 → get_thread_depth db m = n) ∧
    get_thread_depth db m ≤ 101 := by
  constructor
  · intro hc hle
    have := get_thread_depth_loop_of_chain db 0 hc (by omega)
    simpa [get_thread_depth] using this
  · exact get_thread_depth_loop_le db m.parent_message_id 0 (by omega)

/-- Witness for C3 at the concrete chain 1 → 2 → 3: the message 1 sits two
hops above the root and its depth computes to 2 (≤ 100, ≤ 101). -/
theorem thread_depth_amended_witness :
    get_thread_depth chainDb chainMsg = 2 ∧ get_thread_depth chainDb chainMsg ≤ 101 := by
  have hc : IdChain chainDb chainMsg.parent_message_id 2 := by
    rw [show chainMsg.parent_message_id = some 2 from rfl]
    apply IdChain.cons
    rw [show parent_of chainDb 2 = some 3 from rfl]
    apply IdChain.cons
    rw [show parent_of chainDb 3 = none from rfl]
    exact IdChain.nil
  exact ⟨(thread_depth_amended chainDb chainMsg 2).1 hc (by omega),
         (thread_depth_amended chainDb chainMsg 2).2⟩

lemma get_root_message_of_root (db : List MsgRow) (m : MsgRow)
    (h : m.parent_message_id = none) : ∀ fuel, get_root_message db fuel m = m := by
  intro fuel
  cases fuel with
  | zero => rfl
  | succ f => simp [get_root_message, h]

/-- C7: on a message whose parent chain is finite (acyclic, with `n` hops to
the root), the upward walk of `get_root_message` stabilises: any fuel at
least `n` computes the same result (the loop terminates), the result has a
null parent, and the walk applied to its own result returns that result
unchanged (idempotence). -/
theorem root_message_spec (db : List MsgRow) (m : MsgRow) (n : Nat)
    (hc : MsgChain db m n) :
    ∀ fuel, n ≤ fuel →
      (get_root_message db fuel m).parent_message_id = none ∧
      get_root_message db fuel m = get_root_message db n m ∧
      (∀ fuel', get_root_message db fuel' (get_root_message db fuel m) =
        get_root_message db fuel m) := by
  induction hc with
  | root m hm =>
    intro fuel _
    rw [get_root_message_of_root db m hm fuel, get_root_message_of_root db m hm 0]
    exact ⟨hm, rfl, get_root_message_of_root db m hm⟩
  | step m p pid k hp hfind _ ih =>
    intro fuel hle
    obtain ⟨f, rfl⟩ : ∃ f, fuel = f + 1 := ⟨fuel - 1, by omega⟩
    have hstep : ∀ g, get_root_message db (g + 1) m = get_root_message db g p := by
      intro g
      simp [get_root_message, hp, hfind]
    rw [hstep f, hstep k]
    obtain ⟨h1, h2, h3⟩ := ih f (by omega)
    exact ⟨h1, h2, h3⟩

/-- Witness for C7 on the chain 1 → 2 → 3 (two hops): walking up from message
1 ends on a null-parent row and re-walking from there is the identity. -/
theorem root_message_spec_witness :
    (get_root_message chainDb 2 chainMsg).parent_message_id = none ∧
    get_root_message chainDb 7 (get_root_message chainDb 2 chainMsg) =
      get_root_message chainDb 2 chainMsg := by
  have hc : MsgChain chainDb chainMsg 2 :=
    MsgChain.step chainMsg (exRow 2 (some 3) 1) 2 1 rfl rfl
      (MsgChain.step (exRow 2 (some 3) 1) (exRow 3 none 2) 3 0 rfl rfl
        (MsgChain.root (exRow 3 none 2) rfl))
  have h := root_message_spec chainDb chainMsg 2 hc 2 (by omega)
  exact ⟨h.1, h.2.2 7⟩

lemma mem_direct_replies {db : List MsgRow} {msg r : MsgRow} :
    r ∈ direct_replies db msg ↔ r ∈ db ∧ r.parent_message_id = some msg.id := by
  simp [direct_replies, List.mem_mergeSort, List.mem_filter]

lemma collect_replies_foldl_acc (db : List MsgRow) (fuel : Nat)
    (ih : ∀ (msg : MsgRow) (acc : List MsgRow),
      collect_replies db fuel msg acc = acc ++ collect_replies db fuel msg []) :
    ∀ (l acc1 acc2 : List MsgRow),
      l.foldl (fun a r => collect_replies db fuel r (a ++ [r])) (acc1 ++ acc2) =
        acc1 ++ l.foldl (fun a r => collect_replies db fuel r (a ++ [r])) acc2 := by
  intro l
  induction l with
  | nil => intro acc1 acc2; rfl
  | cons r rs ihl =>
    intro acc1 acc2
    simp only [List.foldl_cons]
    have h1 : collect_replies db fuel r (acc1 ++ acc2 ++ [r]) =
        acc1 ++ collect_replies db fuel r (acc2 ++ [r]) := by
      rw [ih r (acc1 ++ acc2 ++ [r]), ih r (acc2 ++ [r])]
      simp
    rw [h1, ihl]

lemma collect_replies_acc (db : List MsgRow) :
    ∀ (fuel : Nat) (msg : MsgRow) (acc : List MsgRow),
      collect_replies db fuel msg acc = acc ++ collect_replies db fuel msg [] := by
  intro fuel
  induction fuel with
  | zero => intro msg acc; simp [collect_replies]
  | succ f ih =>
    intro msg acc
    simp only [collect_replies]
    have := collect_replies_foldl_acc db f ih (direct_replies db msg) acc []
    simpa using this

lemma mem_collect_replies_foldl (db : List MsgRow) (fuel : Nat) :
    ∀ (l acc : List MsgRow) (x : MsgRow),
      x ∈ l.foldl (fun a r => collect_replies db fuel r (a ++ [r])) acc ↔
        x ∈ acc ∨ ∃ r ∈ l, x = r ∨ x ∈ collect_replies db fuel r [] := by
  intro l
  induction l with
  | nil => intro acc x; simp
  | cons r rs ihl =>
    intro acc x
    simp only [List.foldl_cons]
    rw [ihl]
    have h1 : collect_replies db fuel r (acc ++ [r]) =
        acc ++ [r] ++ collect_replies db fuel r [] := collect_replies_acc db fuel r _
    rw [h1]
    simp only [List.mem_append, List.mem_cons, List.mem_singleton, List.not_mem_nil,
      or_false, List.mem_cons]
    constructor
    · rintro (((h | h) | h) | ⟨r', hr', h⟩)
      · exact Or.inl h
      · exact Or.inr ⟨r, Or.inl rfl, Or.inl h⟩
      · exact Or.inr ⟨r, Or.inl rfl, Or.inr h⟩
      · exact Or.inr ⟨r', Or.inr hr', h⟩
    · rintro (h | ⟨r', hr' | hr', h⟩)
      · exact Or.inl (Or.inl (Or.inl h))
      · subst hr'
        rcases h with h | h
        · exact Or.inl (Or.inl (Or.inr h))
        · exact Or.inl (Or.inr h)
      · exact Or.inr ⟨r', hr', h⟩

lemma DescAt.one_le {db : List MsgRow} {root x : MsgRow} {d : Nat}
    (h : DescAt db root x d) : 1 ≤ d := by
  cases h <;> omega

lemma mem_collect_replies (db : List MsgRow) :
    ∀ (fuel : Nat) (msg x : MsgRow),
      x ∈ collect_replies db fuel msg [] ↔
        ∃ d, 1 ≤ d ∧ d ≤ fuel ∧ DescAt db msg x d := by
  intro fuel
  induction fuel with
  | zero =>
    intro msg x
    simp only [collect_replies, List.not_mem_nil, false_iff]
    rintro ⟨d, h1, h2, _⟩
    omega
  | succ f ih =>
    intro msg x
    simp only [collect_replies]
    rw [mem_collect_replies_foldl]
    simp only [List.not_mem_nil, false_or]
    constructor
    · rintro ⟨r, hr, hx | hx⟩
      · obtain ⟨hrdb, hrp⟩ := mem_direct_replies.mp hr
        subst hx
        exact ⟨1, by omega, by omega, DescAt.direct msg x hrdb hrp⟩
      · obtain ⟨hrdb, hrp⟩ := mem_direct_replies.mp hr
        obtain ⟨d, hd1, hd2, hdesc⟩ := (ih r x).mp hx
        exact ⟨d + 1, by omega, by omega, DescAt.via msg r x d hrdb hrp hdesc⟩
    · rintro ⟨d, hd1, hd2, hdesc⟩
      cases hdesc with
      | direct _ _ hxdb hxp =>
        exact ⟨x, mem_direct_replies.mpr ⟨hxdb, hxp⟩, Or.inl rfl⟩
      | via _ r _ d' hrdb hrp hdesc' =>
        refine ⟨r, mem_direct_replies.mpr ⟨hrdb, hrp⟩, Or.inr ?_⟩
        exact (ih r x).mpr ⟨d', hdesc'.one_le, by omega, hdesc'⟩

/-- C10: with its default depth limit of 10, `get_all_replies` returns
exactly the descendants nested between 1 and 10 levels below the message;
a descendant that is only reachable deeper than 10 levels is silently
omitted, so the instance-level listing is not the complete descendant set. -/
theorem get_all_replies_depth_limited (db : List MsgRow) (msg x : MsgRow) :
    x ∈ get_all_replies db msg ↔ ∃ d, 1 ≤ d ∧ d ≤ 10 ∧ DescAt db msg x d :=
  mem_collect_replies db 10 msg x

lemma mem_childIds {db : List MsgRow} {pid i : Nat} :
    i ∈ childIds db pid ↔ ∃ m ∈ db, m.parent_message_id = some pid ∧ m.id = i := by
  simp only [childIds, List.mem_map, List.mem_filter, beq_iff_eq]
  constructor
  · rintro ⟨m, ⟨hm, hp⟩, rfl⟩
    exact ⟨m, hm, hp, rfl⟩
  · rintro ⟨m, hm, hp, rfl⟩
    exact ⟨m, ⟨hm, hp⟩, rfl⟩

lemma descendants_sound (db : List MsgRow) (root : Nat) :
    ∀ stack coll, (∀ i ∈ stack, ReachesId db root i) → (∀ i ∈ coll, ReachesId db root i) →
      ∀ x ∈ get_all_descendants db stack coll, ReachesId db root x := by
  intro stack coll
  induction stack, coll using get_all_descendants.induct db with
  | case1 coll =>
    intro _ hc x hx
    simp only [get_all_descendants] at hx
    exact hc x hx
  | case2 msgId rest coll hmem ih =>
    intro hs hc x hx
    simp only [get_all_descendants, if_pos hmem] at hx
    exact ih (fun i hi => hs i (List.mem_cons_of_mem _ hi)) hc x hx
  | case3 msgId rest coll hmem ih =>
    intro hs hc x hx
    simp only [get_all_descendants, if_neg hmem] at hx
    have hroot : ReachesId db root msgId := hs msgId (List.mem_cons_self _ _)
    refine ih ?_ ?_ x hx
    · intro i hi
      rcases List.mem_append.mp hi with h | h
      · obtain ⟨m, hm, hp, rfl⟩ := mem_childIds.mp h
        exact ReachesId.child hroot hm hp
      · exact hs i (List.mem_cons_of_mem _ h)
    · intro i hi
      rcases Finset.mem_insert.mp hi with rfl | h
      · exact hroot
      · exact hc i h

lemma descendants_contains (db : List MsgRow) :
    ∀ stack coll,
      (∀ i ∈ coll, i ∈ get_all_descendants db stack coll) ∧
      (∀ i ∈ stack, i ∈ get_all_descendants db stack coll) := by
  intro stack coll
  induction stack, coll using get_all_descendants.induct db with
  | case1 coll =>
    simp only [get_all_descendants]
    exact ⟨fun i hi => hi, fun i hi => absurd hi (List.not_mem_nil i)⟩
  | case2 msgId rest coll hmem ih =>
    simp only [get_all_descendants, if_pos hmem]
    refine ⟨ih.1, fun i hi => ?_⟩
    rcases List.mem_cons.mp hi with rfl | h
    · exact ih.1 i hmem
    · exact ih.2 i h
  | case3 msgId rest coll hmem ih =>
    simp only [get_all_descendants, if_neg hmem]
    refine ⟨fun i hi => ih.1 i (Finset.mem_insert_of_mem hi), fun i hi => ?_⟩
    rcases List.mem_cons.mp hi with rfl | h
    · exact ih.1 i (Finset.mem_insert_self i coll)
    · exact ih.2 i (List.mem_append_right _ h)

lemma descendants_closed (db : List MsgRow) :
    ∀ stack coll,
      (∀ x ∈ coll, ∀ c ∈ childIds db x, c ∈ coll ∨ c ∈ stack) →
      ∀ x ∈ get_all_descendants db stack coll, ∀ c ∈ childIds db x,
        c ∈ get_all_descendants db stack coll := by
  intro stack coll
  induction stack, coll using get_all_descendants.induct db with
  | case1 coll =>
    intro hinv x hx c hc
    simp only [get_all_descendants] at *
    rcases hinv x hx c hc with h | h
    · exact h
    · exact absurd h (List.not_mem_nil c)
  | case2 msgId rest coll hmem ih =>
    intro hinv x hx c hc
    simp only [get_all_descendants, if_pos hmem] at *
    refine ih ?_ x hx c hc
    intro y hy d hd
    rcases hinv y hy d hd with h | h
    · exact Or.inl h
    · rcases List.mem_cons.mp h with rfl | h'
      · exact Or.inl hmem
      · exact Or.inr h'
  | case3 msgId rest coll hmem ih =>
    intro hinv x hx c hc
    simp only [get_all_descendants, if_neg hmem] at *
    refine ih ?_ x hx c hc
    intro y hy d hd
    rcases Finset.mem_insert.mp hy with rfl | hy'
    · exact Or.inr (List.mem_append_left _ hd)
    · rcases hinv y hy' d hd with h | h
      · exact Or.inl (Finset.mem_insert_of_mem h)
      · rcases List.mem_cons.mp h with rfl | h'
        · exact Or.inl (Finset.mem_insert_self d coll)
        · exact Or.inr (List.mem_append_right _ h')

lemma descendants_complete (db : List MsgRow) (root : Nat) :
    ∀ x, ReachesId db root x → x ∈ get_all_descendants db [root] ∅ := by
  intro x hx
  induction hx with
  | refl => exact (descendants_contains db [root] ∅).2 root (List.mem_cons_self _ _)
  | @child pid m _ hm hp ih =>
    have hclosed := descendants_closed db [root] ∅
      (fun y hy => absurd hy (Finset.not_mem_empty y))
    exact hclosed pid ih m.id (mem_childIds.mpr ⟨m, hm, hp, rfl⟩)

lemma descendants_iff (db : List MsgRow) (root : Nat) (i : Nat) :
    i ∈ insert root (get_all_descendants db [root] ∅) ↔ ReachesId db root i := by
  constructor
  · intro h
    rcases Finset.mem_insert.mp h with rfl | h'
    · exact ReachesId.refl
    · exact descendants_sound db root [root] ∅
        (fun j hj => by rcases List.mem_cons.mp hj with rfl | hj'
                        · exact ReachesId.refl
                        · exact absurd hj' (List.not_mem_nil j))
        (fun j hj => absurd hj (Finset.not_mem_empty j)) i h'
  · intro h
    exact Finset.mem_insert_of_mem (descendants_complete db root i h)

/-- C5: `get_thread(root_id)` is empty when no message with that id exists;
when the root exists it returns exactly the rows whose id is reachable from
the root through parent links (the root and all transitive replies), sorted
by creation timestamp ascending.  The traversal is a total function — its
visited-set guard (the termination measure of `get_all_descendants`) makes
it terminate on arbitrary, even cyclic, parent data. -/
theorem get_thread_spec (db : List MsgRow) (root_message_id : Nat) :
    (db.find? (fun m => m.id == root_message_id) = none →
      get_thread db root_message_id = []) ∧
    ((db.find? (fun m => m.id == root_message_id)).isSome = true →
      ∀ x, x ∈ get_thread db root_message_id ↔
        x ∈ db ∧ ReachesId db root_message_id x.id) ∧
    (get_thread db root_message_id).Pairwise (fun a b => a.timestamp ≤ b.timestamp) := by
  refine ⟨?_, ?_, ?_⟩
  · intro h
    simp only [get_thread, h]
  · intro h x
    obtain ⟨r, hr⟩ := Option.isSome_iff_exists.mp h
    simp only [get_thread, hr, List.mem_mergeSort, List.mem_filter, decide_eq_true_eq,
      descendants_iff]
  · unfold get_thread
    cases hf : db.find? (fun m => m.id == root_message_id) with
    | none => simp
    | some r => exact pairwise_mergeSort_ts _

/-- Witness for C5 on the two-message thread: a missing root id (5) yields the
empty result, and the reply row 2 is in the thread of root 1 exactly because
it is reachable from it. -/
theorem get_thread_spec_witness :
    get_thread threadDb 5 = [] ∧
    (exRow 2 (some 1) 1 ∈ get_thread threadDb 1 ↔
      exRow 2 (some 1) 1 ∈ threadDb ∧ ReachesId threadDb 1 (exRow 2 (some 1) 1).id) :=
  ⟨(get_thread_spec threadDb 5).1 (by decide),
   (get_thread_spec threadDb 1).2.1 (by decide) (exRow 2 (some 1) 1)⟩

lemma clean_ok_of_ne {inst : MsgInstance} (h : inst.sender_id ≠ inst.receiver_id) :
    clean inst = Except.ok () := by
  unfold clean
  rw [if_neg]
  exact fun hc => h hc.2.2

lemma capture_of_pk_none {db : DB} {inst : MsgInstance} (h : inst.pk = none) :
    capture_message_history db inst = inst := by
  simp only [capture_message_history, h]

lemma capture_pk {db : DB} {inst : MsgInstance} :
    (capture_message_history db inst).pk = inst.pk := by
  unfold capture_message_history
  split
  · rfl
  · split
    · rfl
    · split <;> rfl

lemma capture_sender {db : DB} {inst : MsgInstance} :
    (capture_message_history db inst).sender_id = inst.sender_id ∧
    (capture_message_history db inst).receiver_id = inst.receiver_id := by
  unfold capture_message_history
  split
  · exact ⟨rfl, rfl⟩
  · split
    · exact ⟨rfl, rfl⟩
    · split <;> exact ⟨rfl, rfl⟩

lemma writeRow_update (db : DB) (inst : MsgInstance) (pk : Nat)
    (hpk : inst.pk = some pk)
    (hex : (db.messages.find? (fun r => r.id == pk)).isSome = true) :
    writeRow db inst =
      ({ db with messages := db.messages.map (fun r => if r.id == pk then rowOf inst pk else r) },
       inst, pk, false) := by
  unfold writeRow
  rw [hpk]
  simp [hex]

lemma writeRow_insert (db : DB) (inst : MsgInstance) (hpk : inst.pk = none) :
    writeRow db inst =
      ({ db with messages := db.messages ++ [rowOf inst (nextId db)] },
       { inst with pk := some (nextId db) }, nextId db, true) := by
  simp only [writeRow, hpk]

lemma post_save_update_notifications (db : DB) (inst : MsgInstance) (pk now : Nat) :
    (create_notification_on_message db inst pk false now).notifications = db.notifications := by
  unfold create_notification_on_message
  simp only [Bool.false_eq_true, if_false]
  split <;> rfl

lemma le_foldr_max (l : List Nat) : ∀ i ∈ l, i ≤ l.foldr max 0 := by
  induction l with
  | nil => simp
  | cons a l ih =>
    intro i hi
    rcases List.mem_cons.mp hi with rfl | h
    · simp [List.foldr]
    · exact le_trans (ih i h) (by simp [List.foldr])

lemma lt_nextId (db : DB) : ∀ r ∈ db.messages, r.id < nextId db := by
  intro r hr
  have : r.id ≤ (db.messages.map (fun m => m.id)).foldr max 0 :=
    le_foldr_max _ r.id (List.mem_map_of_mem _ hr)
  unfold nextId
  omega

/-- C1: a save of an instance with no primary key (a message creation, with a
set receiver distinct from the sender, in a database whose notifications all
reference existing messages) appends exactly one unread notification for the
receiver of the new message — afterwards the `(receiver, new message)` pair
holds exactly that one notification — and touches no history; a save of an
already-existing row (an update) never creates or alters any notification. -/
theorem message_creation_notification (db : DB) (inst : MsgInstance) (now : Nat) :
    (inst.pk = none → inst.sender_id ≠ inst.receiver_id → inst.receiver_id ≠ 0 →
      (∀ nt ∈ db.notifications, ∃ r ∈ db.messages, nt.message_id = r.id) →
      ∃ out, save db inst now = Except.ok out ∧
        out.1.notifications = db.notifications ++
          [{ user_id := inst.receiver_id, message_id := nextId db, is_read := false,
             created_at := now }] ∧
        notificationsFor out.1 inst.receiver_id (nextId db) =
          [{ user_id := inst.receiver_id, message_id := nextId db, is_read := false,
             created_at := now }] ∧
        out.1.history = db.history) ∧
    (∀ pk, inst.pk = some pk →
      (db.messages.find? (fun r => r.id == pk)).isSome = true →
      inst.sender_id ≠ inst.receiver_id →
      ∃ out, save db inst now = Except.ok out ∧ out.1.notifications = db.notifications) := by
  constructor
  · intro hpk hsr hrecv hint
    have hnodup : db.notifications.any
        (fun nt => nt.user_id == inst.receiver_id && nt.message_id == nextId db) = false := by
      rw [List.any_eq_false]
      intro nt hnt
      obtain ⟨r, hr, hmid⟩ := hint nt hnt
      have := lt_nextId db r hr
      simp only [Bool.and_eq_true, beq_iff_eq, not_and]
      intro _
      omega
    have hpost : create_notification_on_message
        { db with messages := db.messages ++ [rowOf inst (nextId db)] }
        { inst with pk := some (nextId db) } (nextId db) true now =
        { db with
          messages := db.messages ++ [rowOf inst (nextId db)]
          notifications := db.notifications ++
            [{ user_id := inst.receiver_id, message_id := nextId db, is_read := false,
               created_at := now }] } := by
      unfold create_notification_on_message
      rw [if_pos rfl, if_neg hrecv, if_neg (by simp [hnodup])]
    have hsave : save db inst now = Except.ok
        ({ db with
           messages := db.messages ++ [rowOf inst (nextId db)]
           notifications := db.notifications ++
             [{ user_id := inst.receiver_id, message_id := nextId db, is_read := false,
                created_at := now }] },
         { inst with pk := some (nextId db) }) := by
      unfold save
      rw [clean_ok_of_ne hsr]
      simp only [capture_of_pk_none hpk, writeRow_insert db inst hpk, hpost]
    refine ⟨_, hsave, rfl, ?_, rfl⟩
    unfold notificationsFor
    show (db.notifications ++ [_]).filter _ = _
    rw [List.filter_append, List.filter_eq_nil_iff.mpr, List.nil_append]
    · simp
    · intro nt hnt
      obtain ⟨r, hr, hmid⟩ := hint nt hnt
      have := lt_nextId db r hr
      simp only [Bool.and_eq_true, beq_iff_eq, not_and]
      intro _
      omega
  · intro pk hpk hex hsr
    have hsave : save db inst now = Except.ok
        (create_notification_on_message
          { db with messages := db.messages.map (fun r =>
              if r.id == pk then rowOf (capture_message_history db inst) pk else r) }
          (capture_message_history db inst) pk false now,
         capture_message_history db inst) := by
      unfold save
      rw [clean_ok_of_ne hsr]
      simp only [writeRow_update db (capture_message_history db inst) pk
        (capture_pk.trans hpk) hex]
    exact ⟨_, hsave, post_save_update_notifications _ _ pk now⟩

/-- Witness for C1: creating a fresh message from user 1 to user 2 in the base
database yields exactly one new unread notification for user 2 and message 2;
re-saving the existing message 1 leaves the notification table unchanged. -/
theorem message_creation_notification_witness :
    (∃ out, save baseDB freshInst 7 = Except.ok out ∧
      out.1.notifications = baseDB.notifications ++
        [{ user_id := 2, message_id := nextId baseDB, is_read := false, created_at := 7 }] ∧
      notificationsFor out.1 2 (nextId baseDB) =
        [{ user_id := 2, message_id := nextId baseDB, is_read := false, created_at := 7 }] ∧
      out.1.history = baseDB.history) ∧
    (∃ out, save baseDB baseInst 8 = Except.ok out ∧
      out.1.notifications = baseDB.notifications) :=
  ⟨(message_creation_notification baseDB freshInst 7).1 rfl (by decide) (by decide)
      (by decide),
   (message_creation_notification baseDB baseInst 8).2 1 rfl (by decide) (by decide)⟩

/-- C4 fails on the code: the staged `_content_changed` flag is never cleared
from the instance, so a save that does not change the content, performed on an
instance that was previously saved with a content change, still takes the
history branch of the `post_save` handler.  Evaluating the code: editing
message 1 from "hi" to "hello" at t=10 and then re-saving the same instance
with unchanged content at t=11 leaves TWO history rows — the second a
duplicate carrying the stale old content "hi" — and bumps `edited_at` from 10
to 11, where the claim requires zero new rows and unchanged edit fields. -/
theorem stale_flag_history_bug :
    (applyEdits baseDB baseInst [("hello", 10), ("hello", 11)]).map
        (fun out => (out.1.history, out.1.messages.map (fun r => (r.edited, r.edited_at)))) =
      Except.ok
        ([{ message_id := 1, old_content := "hi", edited_at := 10, edited_by := some 1 },
          { message_id := 1, old_content := "hi", edited_at := 11, edited_by := some 1 }],
         [(true, some 11)]) := by
  rfl

lemma capture_of_changed {db : DB} {inst : MsgInstance} {mid : Nat} {row : MsgRow}
    (hpk : inst.pk = some mid)
    (hfind : db.messages.find? (fun r => r.id == mid) = some row)
    (hne : row.content ≠ inst.content) :
    capture_message_history db inst =
      { inst with old_content := row.content, content_changed := true } := by
  simp only [capture_message_history, hpk, hfind, if_pos hne]

lemma post_save_changed (db : DB) (inst : MsgInstance) (pk now : Nat)
    (h : inst.content_changed = true) :
    create_notification_on_message db inst pk false now =
      { db with
        history := db.history ++ [{ message_id := pk, old_content := inst.old_content,
                                    edited_at := now, edited_by := some inst.sender_id }]
        messages := db.messages.map (fun r =>
          if r.id == pk then { r with edited := true, edited_at := some now } else r) } := by
  simp only [create_notification_on_message, Bool.false_eq_true, if_false, h, if_true]

lemma map_update_map_update (l : List MsgRow) (mid : Nat) (a : MsgRow) (ha : a.id = mid)
    (g : MsgRow → MsgRow) :
    (l.map (fun r => if r.id == mid then a else r)).map
        (fun r => if r.id == mid then g r else r) =
      l.map (fun r => if r.id == mid then g a else r) := by
  rw [List.map_map]
  apply List.map_congr_left
  intro r _
  by_cases h : r.id = mid
  · simp [Function.comp, h, ha]
  · simp [Function.comp, h]

lemma find?_map_update (l : List MsgRow) (mid : Nat) (b : MsgRow) (hb : b.id = mid)
    (hfind : (l.find? (fun r => r.id == mid)).isSome = true) :
    (l.map (fun r => if r.id == mid then b else r)).find? (fun r => r.id == mid) =
      some b := by
  induction l with
  | nil => simp [List.find?] at hfind
  | cons a l ih =>
    by_cases h : a.id = mid
    · simp [List.find?, h, hb]
    · have hx : ((if (a.id == mid) = true then b else a) : MsgRow) = a := by simp [h]
      rw [List.map_cons, hx, List.find?_cons_of_neg _ (by simpa using h)]
      exact ih (by rwa [List.find?_cons_of_neg _ (by simpa using h)] at hfind)

lemma save_edit_step (db : DB) (inst : MsgInstance) (mid : Nat) (row : MsgRow)
    (c : String) (t : Nat)
    (hpk : inst.pk = some mid)
    (hfind : db.messages.find? (fun r => r.id == mid) = some row)
    (hne : row.content ≠ c)
    (hsr : inst.sender_id ≠ inst.receiver_id) :
    save db { inst with content := c } t = Except.ok
      ({ db with
         messages := db.messages.map (fun r =>
           if r.id == mid then
             { rowOf { inst with content := c } mid with
                 edited := true, edited_at := some t }
           else r)
         history := db.history ++
           [{ message_id := mid, old_content := row.content, edited_at := t,
              edited_by := some inst.sender_id }] },
       { inst with
         content := c
         old_content := row.content
         content_changed := true }) := by
  have hpk2 : ({ inst with content := c } : MsgInstance).pk = some mid := hpk
  have hne2 : row.content ≠ ({ inst with content := c } : MsgInstance).content := hne
  have hcap := capture_of_changed hpk2 hfind hne2
  have hex : (db.messages.find? (fun r => r.id == mid)).isSome = true := by
    rw [hfind]; rfl
  have hw := writeRow_update db
    { inst with content := c, old_content := row.content, content_changed := true }
    mid hpk hex
  have hps := post_save_changed
    { db with messages := db.messages.map (fun r =>
        if r.id == mid then
          rowOf { inst with content := c, old_content := row.content, content_changed := true } mid
        else r) }
    { inst with content := c, old_content := row.content, content_changed := true }
    mid t rfl
  unfold save
  rw [clean_ok_of_ne (show ({ inst with content := c } : MsgInstance).sender_id ≠
    ({ inst with content := c } : MsgInstance).receiver_id from hsr)]
  simp only [hcap, hw, hps]
  rw [map_update_map_update db.messages mid
    (rowOf { inst with content := c, old_content := row.content, content_changed := true } mid)
    rfl (fun r => { r with edited := true, edited_at := some t })]
  rfl

lemma applyEdits_spec :
    ∀ (edits : List (String × Nat)) (db : DB) (inst : MsgInstance)
      (mid : Nat) (row : MsgRow) (t0 : Nat),
      inst.pk = some mid →
      db.messages.find? (fun r => r.id == mid) = some row →
      inst.sender_id ≠ inst.receiver_id →
      ValidEdits row.content t0 edits →
      ∃ out, applyEdits db inst edits = Except.ok out ∧
        out.1.history = db.history ++ expectedHistory mid inst.sender_id row.content edits ∧
        out.1.notifications = db.notifications ∧
        ∃ row', out.1.messages.find? (fun r => r.id == mid) = some row' ∧
          row'.content = finalContent row.content edits ∧
          (edits = [] → row' = row) ∧
          (edits ≠ [] → row'.edited = true ∧ row'.edited_at = some (finalTime t0 edits)) := by
  intro edits
  induction edits with
  | nil =>
    intro db inst mid row t0 hpk hfind hsr _
    exact ⟨(db, inst), rfl, by simp [expectedHistory], rfl, row, hfind, rfl,
      fun _ => rfl, fun h => absurd rfl h⟩
  | cons e rest ih =>
    obtain ⟨c, t⟩ := e
    intro db inst mid row t0 hpk hfind hsr hv
    obtain ⟨hne, hlt, hrest⟩ := hv
    have hstep := save_edit_step db inst mid row c t hpk hfind (Ne.symm hne) hsr
    have hfind1 : (db.messages.map (fun r =>
        if r.id == mid then
          { rowOf { inst with content := c } mid with edited := true, edited_at := some t }
        else r)).find? (fun r => r.id == mid) =
        some { rowOf { inst with content := c } mid with
               edited := true, edited_at := some t } :=
      find?_map_update db.messages mid _ rfl (by rw [hfind]; rfl)
    obtain ⟨out, happ, hh, hn, row', hfr, hc, hnil, hne2⟩ := ih
      { db with
        messages := db.messages.map (fun r =>
          if r.id == mid then
            { rowOf { inst with content := c } mid with edited := true, edited_at := some t }
          else r)
        history := db.history ++
          [{ message_id := mid, old_content := row.content, edited_at := t,
             edited_by := some inst.sender_id }] }
      { inst with content := c, old_content := row.content, content_changed := true }
      mid
      { rowOf { inst with content := c } mid with edited := true, edited_at := some t }
      t hpk hfind1 hsr hrest
    refine ⟨out, ?_, ?_, hn, row', hfr, ?_, ?_, ?_⟩
    · simp only [applyEdits, hstep]
      exact happ
    · rw [hh]
      show db.history ++ [_] ++ _ = _
      rw [List.append_assoc]
      rfl
    · rw [hc]
      rfl
    · intro h
      exact absurd h (List.cons_ne_nil _ _)
    · intro _
      by_cases hr : rest = []
      · subst hr
        rw [hnil rfl]
        exact ⟨rfl, rfl⟩
      · exact hne2 hr

lemma expectedHistory_filter (mid sid : Nat) :
    ∀ (edits : List (String × Nat)) (prev : String),
      (expectedHistory mid sid prev edits).filter (fun h => h.message_id == mid) =
        expectedHistory mid sid prev edits := by
  intro edits
  induction edits with
  | nil => intro prev; rfl
  | cons e rest ih =>
    obtain ⟨c, t⟩ := e
    intro prev
    simp only [expectedHistory, List.filter_cons, beq_self_eq_true, if_true, ih]

lemma expectedHistory_length (mid sid : Nat) :
    ∀ (edits : List (String × Nat)) (prev : String),
      (expectedHistory mid sid prev edits).length = edits.length := by
  intro edits
  induction edits with
  | nil => intro prev; rfl
  | cons e rest ih =>
    obtain ⟨c, t⟩ := e
    intro prev
    simp only [expectedHistory, List.length_cons, ih]

lemma expectedHistory_times (mid sid : Nat) :
    ∀ (edits : List (String × Nat)) (prev : String) (t0 : Nat),
      ValidEdits prev t0 edits →
      (∀ h ∈ expectedHistory mid sid prev edits, t0 < h.edited_at) ∧
      (expectedHistory mid sid prev edits).Pairwise
        (fun a b => a.edited_at ≤ b.edited_at) := by
  intro edits
  induction edits with
  | nil =>
    intro prev t0 _
    exact ⟨by simp [expectedHistory], by simp [expectedHistory]⟩
  | cons e rest ih =>
    obtain ⟨c, t⟩ := e
    intro prev t0 hv
    obtain ⟨hne, hlt, hrest⟩ := hv
    obtain ⟨hb, hp⟩ := ih c t hrest
    constructor
    · intro h hmem
      simp only [expectedHistory, List.mem_cons] at hmem
      rcases hmem with rfl | hmem
      · exact hlt
      · exact lt_trans hlt (hb h hmem)
    · simp only [expectedHistory]
      exact List.Pairwise.cons (fun b hb2 => le_of_lt (hb b hb2)) hp

lemma mergeSort_hist_of_sorted {l : List HistoryRow}
    (h : l.Pairwise (fun a b => a.edited_at ≤ b.edited_at)) :
    l.mergeSort (fun a b => decide (a.edited_at ≤ b.edited_at)) = l :=
  List.mergeSort_of_sorted (h.imp (by intro a b hab; simpa using hab))

/-- C2: starting from a message with no history rows, a session of `n`
content-changing saves on one in-memory instance (each strictly later in
time) leaves exactly `n` MessageHistory rows for that message; read in the
model order (`-edited_at`, most recent first) they are the reverse of the
per-edit rows, where the k-th edit's row carries the content stored
immediately before that edit; and after a non-empty session the stored row
has `edited = true` and `edited_at` stamped with the last edit's clock. -/
theorem edit_history_rows (db : DB) (inst : MsgInstance) (mid : Nat) (row : MsgRow)
    (edits : List (String × Nat)) (t0 : Nat)
    (hpk : inst.pk = some mid)
    (hfind : db.messages.find? (fun r => r.id == mid) = some row)
    (hsr : inst.sender_id ≠ inst.receiver_id)
    (hv : ValidEdits row.content t0 edits)
    (hhist : db.history.filter (fun h => h.message_id == mid) = []) :
    ∃ out, applyEdits db inst edits = Except.ok out ∧
      historyFor out.1 mid =
        (expectedHistory mid inst.sender_id row.content edits).reverse ∧
      (historyFor out.1 mid).length = edits.length ∧
      (edits ≠ [] → ∃ row', out.1.messages.find? (fun r => r.id == mid) = some row' ∧
        row'.content = finalContent row.content edits ∧
        row'.edited = true ∧ row'.edited_at = some (finalTime t0 edits)) := by
  obtain ⟨out, happ, hh, _, row', hfr, hc, _, hne⟩ :=
    applyEdits_spec edits db inst mid row t0 hpk hfind hsr hv
  have hfor : historyFor out.1 mid =
      (expectedHistory mid inst.sender_id row.content edits).reverse := by
    unfold historyFor
    rw [hh, List.filter_append, hhist, List.nil_append, expectedHistory_filter,
      mergeSort_hist_of_sorted
        (expectedHistory_times mid inst.sender_id edits row.content t0 hv).2]
  refine ⟨out, happ, hfor, ?_, ?_⟩
  · rw [hfor, List.length_reverse, expectedHistory_length]
  · intro hne'
    exact ⟨row', hfr, hc, (hne hne').1, (hne hne').2⟩

/-- Witness for C2: editing message 1 ("hi") to "a" at t=10 then "b" at t=20
leaves exactly two history rows, most recent first, holding "a"-before and
"hi"-before contents, and the stored row ends edited with `edited_at = 20`. -/
theorem edit_history_rows_witness :
    ∃ out, applyEdits baseDB baseInst [("a", 10), ("b", 20)] = Except.ok out ∧
      historyFor out.1 1 =
        (expectedHistory 1 1 "hi" [("a", 10), ("b", 20)]).reverse ∧
      (historyFor out.1 1).length = 2 ∧
      ([("a", 10), ("b", 20)] ≠ ([] : List (String × Nat)) →
        ∃ row', out.1.messages.find? (fun r => r.id == 1) = some row' ∧
          row'.content = finalContent "hi" [("a", 10), ("b", 20)] ∧
          row'.edited = true ∧
          row'.edited_at = some (finalTime 0 [("a", 10), ("b", 20)])) :=
  edit_history_rows baseDB baseInst 1 baseMsgRow [("a", 10), ("b", 20)] 0 rfl (by decide)
    (by decide) ⟨by decide, by omega, by decide, by omega, trivial⟩ rfl
